import Mathlib

/-!
# Verification of the viscy windowed dataset indexing and caching layer

Shallow embedding of the index arithmetic and data plumbing of
`viscy/data/hcs.py`, `viscy/data/hcs_ram.py` and `viscy/light/data.py`:

* `SlidingWindowDataset._get_windows` / `_find_window` / `_read_img_window`
  (cumulative window counts, flat-index resolution, Z-first decomposition);
* `_collate_samples` (batch collation with list flattening);
* `HCSDataModule._setup_fit` (position-level train/validation split);
* `NormalizeSampled` (median/IQR normalization and its inverse);
* `CachedDataset` (pre-allocated RAM cache, the `HEAD` side of the
  unresolved merge conflict in `hcs_ram.py`, which the repository's design
  notes retain as the canonical variant).

Machine integers are modelled as `Int` (Python integers are unbounded);
Python's floor division `//` is `Int.fdiv`; float tensor values are
modelled as exact rationals.  Python operations that raise are modelled
with `Option`.
-/

namespace VisCy

/-- Per-FOV metadata used by `SlidingWindowDataset._get_windows`:
`img_arr.frames` (T) and `img_arr.slices` (Z) of the position's array. -/
structure FOVInfo where
  frames : Int
  slices : Int
deriving DecidableEq, Repr

/-- The loop body of `SlidingWindowDataset._get_windows`: starting from the
accumulator `w`, for each FOV compute `ts = frames`,
`zs = slices - z_window_size + 1`, add `ts * zs` to `w` and append the new
`w` to `window_keys`.  Returns `(window_keys, w)` where the final `w` is
stored as `_max_window`. -/
def getWindowsAux (zws : Int) : List FOVInfo → Int → List Int × Int
  | [], w => ([], w)
  | fov :: rest, w =>
      let w2 := w + fov.frames * (fov.slices - zws + 1)
      let r := getWindowsAux zws rest w2
      (w2 :: r.1, r.2)

/-- `self.window_keys` after `_get_windows` (cumulative window counts). -/
def windowKeys (zws : Int) (ps : List FOVInfo) : List Int :=
  (getWindowsAux zws ps 0).1

/-- `self._max_window` after `_get_windows`; returned by `__len__`. -/
def maxWindow (zws : Int) (ps : List FOVInfo) : Int :=
  (getWindowsAux zws ps 0).2

/-- `SlidingWindowDataset._find_window`:
`window_idx = sorted(window_keys + [index + 1]).index(index + 1)`,
`w = window_keys[window_idx]`,
`tz = index - window_keys[window_idx - 1] if window_idx > 0 else index`,
and the FOV looked up as `window_keys.index(w)` (first occurrence).
Out-of-range list indexing (an `IndexError` in Python) is modelled by
`getD` with default `0`.  Returns (FOV position index, `tz`). -/
def findWindow (zws : Int) (ps : List FOVInfo) (index : Int) : Nat × Int :=
  let keys := windowKeys zws ps
  let windowIdx := ((keys ++ [index + 1]).mergeSort (· ≤ ·)).indexOf (index + 1)
  let w := keys.getD windowIdx 0
  let tz := if 0 < windowIdx then index - keys.getD (windowIdx - 1) 0 else index
  (keys.indexOf w, tz)

/-- The time/Z decomposition in `SlidingWindowDataset._read_img_window`:
`zs = img.shape[-3] - z_window_size + 1`, `t = (tz + zs) // zs - 1`,
`z = tz - t * zs`.  Python `//` is floor division, i.e. `Int.fdiv`. -/
def readWindowTZ (zws : Int) (slices : Int) (tz : Int) : Int × Int :=
  let zs := slices - zws + 1
  let t := (tz + zs).fdiv zs - 1
  let z := tz - t * zs
  (t, z)

/-- Composition of `_find_window` and the decomposition in
`_read_img_window`, as performed by `__getitem__`: flat index to
(position index, time index, z-start). -/
def resolveWindow (zws : Int) (ps : List FOVInfo) (index : Int) :
    Nat × Int × Int :=
  let fw := findWindow zws ps index
  let p := ps.getD fw.1 ⟨0, 0⟩
  let tzz := readWindowTZ zws p.slices fw.2
  (fw.1, tzz.1, tzz.2)

/-- The cumulative offset of position `j` in the flat index space:
`0` for the first position, otherwise `window_keys[j - 1]`. -/
def windowOffset (zws : Int) (ps : List FOVInfo) (j : Nat) : Int :=
  if j = 0 then 0 else (windowKeys zws ps).getD (j - 1) 0

/-- Recompute a flat index from a `(position, t, z)` triple: the position's
cumulative offset plus `t * (slices - z_window_size + 1)` plus `z`. -/
def flatIndexOf (zws : Int) (ps : List FOVInfo) (j : Nat) (t z : Int) : Int :=
  windowOffset zws ps j + t * ((ps.getD j ⟨0, 0⟩).slices - zws + 1) + z

/-! ## Structural lemmas about the cumulative window index -/

theorem getWindowsAux_snd (zws : Int) (ps : List FOVInfo) (w : Int) :
    (getWindowsAux zws ps w).2 =
      w + (ps.map (fun p => p.frames * (p.slices - zws + 1))).sum := by
  induction ps generalizing w with
  | nil => simp [getWindowsAux]
  | cons p rest ih =>
      simp only [getWindowsAux, List.map_cons, List.sum_cons]
      rw [ih]
      ring

theorem getWindowsAux_fst_shift (zws : Int) (ps : List FOVInfo) (w : Int) :
    (getWindowsAux zws ps w).1 = (windowKeys zws ps).map (w + ·) := by
  induction ps generalizing w with
  | nil => simp [getWindowsAux, windowKeys]
  | cons p rest ih =>
      simp only [windowKeys, getWindowsAux, List.map_cons]
      rw [ih, ih, List.map_map]
      refine List.cons_eq_cons.mpr ⟨by omega, ?_⟩
      apply List.map_congr_left
      intro a _
      simp only [Function.comp_apply]
      omega

theorem windowKeys_cons (zws : Int) (p : FOVInfo) (ps : List FOVInfo) :
    windowKeys zws (p :: ps) =
      (p.frames * (p.slices - zws + 1)) ::
        (windowKeys zws ps).map ((p.frames * (p.slices - zws + 1)) + ·) := by
  have h := getWindowsAux_fst_shift zws ps (0 + p.frames * (p.slices - zws + 1))
  simp only [windowKeys, getWindowsAux]
  rw [h]
  simp [windowKeys]

theorem maxWindow_cons (zws : Int) (p : FOVInfo) (ps : List FOVInfo) :
    maxWindow zws (p :: ps) =
      p.frames * (p.slices - zws + 1) + maxWindow zws ps := by
  simp only [maxWindow]
  rw [getWindowsAux_snd zws (p :: ps) 0, getWindowsAux_snd zws ps 0]
  simp [List.sum_cons]

theorem windowKeys_length (zws : Int) (ps : List FOVInfo) :
    (windowKeys zws ps).length = ps.length := by
  induction ps with
  | nil => simp [windowKeys, getWindowsAux]
  | cons p rest ih => rw [windowKeys_cons]; simp [ih]

/-- A window count of a FOV with at least one frame and at least
`z_window_size` slices is at least `1`. -/
theorem count_pos {zws : Int} {p : FOVInfo}
    (hf : 1 ≤ p.frames) (hs : zws ≤ p.slices) :
    1 ≤ p.frames * (p.slices - zws + 1) := by
  have h1 : 1 ≤ p.slices - zws + 1 := by omega
  nlinarith

theorem maxWindow_nonneg {zws : Int} {ps : List FOVInfo}
    (hc : ∀ p ∈ ps, 1 ≤ p.frames ∧ zws ≤ p.slices) :
    0 ≤ maxWindow zws ps := by
  induction ps with
  | nil => simp [maxWindow, getWindowsAux]
  | cons p rest ih =>
      rw [maxWindow_cons]
      have hp := hc p (List.mem_cons_self p rest)
      have h1 : 1 ≤ p.frames * (p.slices - zws + 1) := count_pos hp.1 hp.2
      have h2 : 0 ≤ maxWindow zws rest :=
        ih (fun q hq => hc q (List.mem_cons_of_mem p hq))
      omega

theorem windowKeys_pos {zws : Int} {ps : List FOVInfo}
    (hc : ∀ p ∈ ps, 1 ≤ p.frames ∧ zws ≤ p.slices) :
    ∀ k ∈ windowKeys zws ps, 1 ≤ k := by
  induction ps with
  | nil => simp [windowKeys, getWindowsAux]
  | cons p rest ih =>
      rw [windowKeys_cons]
      intro k hk
      have hp := hc p (List.mem_cons_self p rest)
      have h1 : 1 ≤ p.frames * (p.slices - zws + 1) := count_pos hp.1 hp.2
      rcases List.mem_cons.mp hk with h | h
      · omega
      · obtain ⟨k', hk', rfl⟩ := List.mem_map.mp h
        have := ih (fun q hq => hc q (List.mem_cons_of_mem p hq)) k' hk'
        omega

/-! ## The sorted-insertion index equals a strict count -/

/-- In a `≤`-sorted list of integers, the index of the first occurrence of a
member `x` is the number of elements strictly below `x`. -/
theorem indexOf_sorted_eq_countP (l : List Int) (x : Int)
    (hs : List.Pairwise (· ≤ ·) l) (hx : x ∈ l) :
    l.indexOf x = l.countP (fun k => decide (k < x)) := by
  induction l with
  | nil => cases hx
  | cons h t ih =>
      have hht : ∀ y ∈ t, h ≤ y := fun y hy => (List.pairwise_cons.mp hs).1 y hy
      have hst : List.Pairwise (· ≤ ·) t := (List.pairwise_cons.mp hs).2
      by_cases hhx : h = x
      · subst hhx
        rw [List.indexOf_cons]
        simp only [beq_self_eq_true, cond_true]
        rw [List.countP_cons]
        have h0 : List.countP (fun k => decide (k < h)) t = 0 :=
          List.countP_eq_zero.mpr (fun a ha => by
            simp only [decide_eq_true_eq]
            exact not_lt.mpr (hht a ha))
        simp [h0]
      · have hxt : x ∈ t := by
          rcases List.mem_cons.mp hx with h' | h'
          · exact absurd h'.symm hhx
          · exact h'
        have hlt : h < x := lt_of_le_of_ne (hht x hxt) hhx
        rw [List.indexOf_cons]
        have hbeq : (h == x) = false := beq_eq_false_iff_ne.mpr hhx
        rw [hbeq]
        simp only [cond_false]
        rw [List.countP_cons]
        simp only [decide_eq_true_eq, hlt, if_true]
        rw [ih hst hxt]

/-- The Python idiom `sorted(keys + [index + 1]).index(index + 1)` in
`_find_window` computes the number of keys that are `≤ index`. -/
theorem sorted_insert_index_eq_countP (keys : List Int) (index : Int) :
    ((keys ++ [index + 1]).mergeSort (· ≤ ·)).indexOf (index + 1) =
      keys.countP (fun k => decide (k ≤ index)) := by
  set l := (keys ++ [index + 1]).mergeSort (· ≤ ·) with hl
  have hperm : l.Perm (keys ++ [index + 1]) :=
    List.mergeSort_perm (keys ++ [index + 1]) _
  have hsorted : List.Pairwise (· ≤ ·) l := by
    have := @List.sorted_mergeSort Int
      (fun a b : Int => decide (a ≤ b))
      (fun a b c hab hbc => by
        simp only [decide_eq_true_eq] at *
        exact le_trans hab hbc)
      (fun a b => by
        simp only [Bool.or_eq_true, decide_eq_true_eq]
        exact le_total a b)
      (keys ++ [index + 1])
    refine List.Pairwise.imp ?_ this
    intro a b hab
    simpa using hab
  have hmem : index + 1 ∈ l := hperm.mem_iff.mpr (by simp)
  rw [indexOf_sorted_eq_countP l (index + 1) hsorted hmem]
  rw [hperm.countP_eq]
  rw [List.countP_append]
  have h1 : List.countP (fun k => decide (k < index + 1)) [index + 1] = 0 := by
    simp [List.countP_cons]
  rw [h1, add_zero]
  apply List.countP_congr
  intro a _
  simp only [decide_eq_true_eq]
  omega

/-- Executable characterization of `_find_window`: the sorted-insertion
index computed with `sorted(...).index(...)` is the count of keys `≤ index`.
This form evaluates by kernel reduction. -/
theorem findWindow_eq_countP (zws : Int) (ps : List FOVInfo) (index : Int) :
    findWindow zws ps index =
      (let keys := windowKeys zws ps
       let wi := keys.countP (fun k => decide (k ≤ index))
       (keys.indexOf (keys.getD wi 0),
        if 0 < wi then index - keys.getD (wi - 1) 0 else index)) := by
  simp only [findWindow, sorted_insert_index_eq_countP]

/-! ## Step lemmas for `_find_window` -/

theorem getD_map_add (c : Int) (l : List Int) (n : Nat) (hn : n < l.length) :
    (l.map (c + ·)).getD n 0 = c + l.getD n 0 := by
  rw [List.getD_eq_getElem _ _ (by simpa using hn), List.getD_eq_getElem _ _ hn]
  simp

theorem indexOf_map_add (c x : Int) (l : List Int) :
    (l.map (c + ·)).indexOf (c + x) = l.indexOf x := by
  induction l with
  | nil => simp
  | cons a t ih =>
      simp only [List.map_cons, List.indexOf_cons]
      have : (c + a == c + x) = (a == x) := by
        by_cases h : a = x
        · simp [h]
        · have h2 : c + a ≠ c + x := by omega
          simp [h, h2]
      rw [this]
      cases h : (a == x) <;> simp [ih]

theorem countP_keys_lt_length {zws : Int} : ∀ {ps : List FOVInfo},
    (∀ p ∈ ps, 1 ≤ p.frames ∧ zws ≤ p.slices) →
    ∀ {index : Int}, 0 ≤ index → index < maxWindow zws ps →
    (windowKeys zws ps).countP (fun k => decide (k ≤ index)) <
      (windowKeys zws ps).length := by
  intro ps
  induction ps with
  | nil =>
      intro _ index h0 h1
      simp [maxWindow, getWindowsAux] at h1
      omega
  | cons p rest ih =>
      intro hc index h0 h1
      have hp := hc p (List.mem_cons_self p rest)
      have hc' := fun q hq => hc q (List.mem_cons_of_mem p hq)
      set c := p.frames * (p.slices - zws + 1) with hcdef
      have hcpos : 1 ≤ c := count_pos hp.1 hp.2
      rw [windowKeys_cons, ← hcdef]
      rw [List.countP_cons]
      by_cases hcase : c ≤ index
      · have hmap : (List.map (c + ·) (windowKeys zws rest)).countP
            (fun k => decide (k ≤ index)) =
            (windowKeys zws rest).countP (fun k => decide (k ≤ index - c)) := by
          rw [List.countP_map]
          apply List.countP_congr
          intro a _
          simp only [Function.comp_apply, decide_eq_true_eq]
          omega
        have hmax : index - c < maxWindow zws rest := by
          rw [maxWindow_cons, ← hcdef] at h1
          omega
        have hrec := ih hc' (by omega : (0:Int) ≤ index - c) hmax
        rw [windowKeys_length] at hrec
        have hlen : (c :: (windowKeys zws rest).map (c + ·)).length =
            rest.length + 1 := by
          simp [windowKeys_length]
        rw [hmap, hlen]
        simp only [decide_eq_true_eq, hcase, if_true]
        omega
      · have hmap0 : (List.map (c + ·) (windowKeys zws rest)).countP
            (fun k => decide (k ≤ index)) = 0 := by
          apply List.countP_eq_zero.mpr
          intro a ha
          obtain ⟨k', hk', rfl⟩ := List.mem_map.mp ha
          have hk1 : 1 ≤ k' := windowKeys_pos hc' k' hk'
          simp only [decide_eq_true_eq]
          omega
        simp only [hmap0, List.length_cons, decide_eq_true_eq, hcase, if_false]
        omega

/-- `_find_window` on a leading position that contains the index. -/
theorem findWindow_cons_lt {zws : Int} {p : FOVInfo} {ps : List FOVInfo}
    (hc : ∀ q ∈ p :: ps, 1 ≤ q.frames ∧ zws ≤ q.slices)
    {index : Int} (h0 : 0 ≤ index)
    (hlt : index < p.frames * (p.slices - zws + 1)) :
    findWindow zws (p :: ps) index = (0, index) := by
  have hc' := fun q hq => hc q (List.mem_cons_of_mem p hq)
  rw [findWindow_eq_countP]
  simp only
  rw [windowKeys_cons]
  set c := p.frames * (p.slices - zws + 1) with hcdef
  have hwi : (c :: (windowKeys zws ps).map (c + ·)).countP
      (fun k => decide (k ≤ index)) = 0 := by
    rw [List.countP_cons]
    have h1 : (List.map (c + ·) (windowKeys zws ps)).countP
        (fun k => decide (k ≤ index)) = 0 := by
      apply List.countP_eq_zero.mpr
      intro a ha
      obtain ⟨k', hk', rfl⟩ := List.mem_map.mp ha
      have hk1 : 1 ≤ k' := windowKeys_pos hc' k' hk'
      simp only [decide_eq_true_eq]
      omega
    simp only [h1, decide_eq_true_eq]
    have hnot : ¬ c ≤ index := by omega
    simp [hnot]
  rw [hwi]
  simp only [List.getD_cons_zero, Nat.lt_irrefl, if_false]
  rw [List.indexOf_cons]
  simp

/-- `_find_window` recursion: when the index is past the first position's
windows, resolution proceeds in the tail with the shifted index. -/
theorem findWindow_cons_ge {zws : Int} {p : FOVInfo} {ps : List FOVInfo}
    (hc : ∀ q ∈ p :: ps, 1 ≤ q.frames ∧ zws ≤ q.slices)
    {index : Int} (hge : p.frames * (p.slices - zws + 1) ≤ index)
    (hlt : index < maxWindow zws (p :: ps)) :
    findWindow zws (p :: ps) index =
      ((findWindow zws ps (index - p.frames * (p.slices - zws + 1))).1 + 1,
       (findWindow zws ps (index - p.frames * (p.slices - zws + 1))).2) := by
  have hp := hc p (List.mem_cons_self p ps)
  have hc' := fun q hq => hc q (List.mem_cons_of_mem p hq)
  set c := p.frames * (p.slices - zws + 1) with hcdef
  have hcpos : 1 ≤ c := count_pos hp.1 hp.2
  have h0' : (0:Int) ≤ index - c := by omega
  have hmax' : index - c < maxWindow zws ps := by
    rw [maxWindow_cons, ← hcdef] at hlt
    omega
  rw [findWindow_eq_countP, findWindow_eq_countP]
  simp only
  rw [windowKeys_cons, ← hcdef]
  set keys := windowKeys zws ps with hkeys
  set j := keys.countP (fun k => decide (k ≤ index - c)) with hjdef
  have hjlen : j < keys.length := countP_keys_lt_length hc' h0' hmax'
  have hwi : (c :: keys.map (c + ·)).countP (fun k => decide (k ≤ index)) =
      j + 1 := by
    rw [List.countP_cons]
    have hmap : (keys.map (c + ·)).countP (fun k => decide (k ≤ index)) = j := by
      rw [List.countP_map, hjdef]
      apply List.countP_congr
      intro a _
      simp only [Function.comp_apply, decide_eq_true_eq]
      omega
    simp only [hmap, decide_eq_true_eq, hge, if_true]
  rw [hwi]
  have hgetj : (c :: keys.map (c + ·)).getD (j + 1) 0 = c + keys.getD j 0 := by
    simp only [List.getD_cons_succ]
    exact getD_map_add c keys j hjlen
  have hw1 : 1 ≤ keys.getD j 0 := by
    apply windowKeys_pos hc'
    rw [List.getD_eq_getElem _ _ hjlen]
    exact List.getElem_mem hjlen
  have hidx : (c :: keys.map (c + ·)).indexOf ((c :: keys.map (c + ·)).getD (j + 1) 0)
      = keys.indexOf (keys.getD j 0) + 1 := by
    rw [hgetj, List.indexOf_cons]
    have hne : (c == c + keys.getD j 0) = false := by
      apply beq_eq_false_iff_ne.mpr
      omega
    rw [hne]
    simp only [cond_false]
    rw [indexOf_map_add]
  rw [hidx]
  refine Prod.ext rfl ?_
  have hsucc : 0 < j + 1 := Nat.succ_pos j
  simp only [hsucc, if_true, Nat.add_sub_cancel]
  rcases Nat.eq_zero_or_pos j with hj0 | hjpos
  · rw [hj0]
    simp
  · obtain ⟨m, hm⟩ : ∃ m, j = m + 1 := ⟨j - 1, by omega⟩
    rw [hm]
    simp only [List.getD_cons_succ]
    rw [getD_map_add c keys m (by omega)]
    have hmpos : 0 < m + 1 := Nat.succ_pos m
    simp only [hmpos, if_true, Nat.add_sub_cancel]
    omega

/-- For a nonnegative window offset `tz` and a positive Z-count, the
`_read_img_window` decomposition is Euclidean division: `t = tz / zs` and
`z = tz % zs` (Z varies fastest). -/
theorem readWindowTZ_spec {zws slices : Int} (tz : Int)
    (hzs : 1 ≤ slices - zws + 1) (h0 : 0 ≤ tz) :
    readWindowTZ zws slices tz =
      (tz / (slices - zws + 1), tz % (slices - zws + 1)) := by
  have hzs0 : (0:Int) ≤ slices - zws + 1 := by omega
  have hne : slices - zws + 1 ≠ 0 := by omega
  show ((tz + (slices - zws + 1)).fdiv (slices - zws + 1) - 1,
        tz - ((tz + (slices - zws + 1)).fdiv (slices - zws + 1) - 1) *
          (slices - zws + 1)) = _
  rw [Int.fdiv_eq_ediv _ hzs0]
  have h1 : (tz + (slices - zws + 1)) / (slices - zws + 1) =
      tz / (slices - zws + 1) + 1 := by
    have h := Int.add_mul_ediv_right tz 1 hne
    simpa using h
  rw [h1]
  refine Prod.ext ?_ ?_
  · simp
  · simp only [add_sub_cancel_right]
    rw [Int.emod_def]
    ring

theorem windowOffset_zero (zws : Int) (ps : List FOVInfo) :
    windowOffset zws ps 0 = 0 := rfl

theorem windowOffset_cons_succ (zws : Int) (p : FOVInfo) (ps : List FOVInfo)
    (j : Nat) (hj : j < ps.length) :
    windowOffset zws (p :: ps) (j + 1) =
      p.frames * (p.slices - zws + 1) + windowOffset zws ps j := by
  unfold windowOffset
  set c := p.frames * (p.slices - zws + 1) with hcdef
  rw [windowKeys_cons, ← hcdef]
  rcases Nat.eq_zero_or_pos j with hj0 | hjpos
  · rw [hj0]
    simp
  · obtain ⟨m, hm⟩ : ∃ m, j = m + 1 := ⟨j - 1, by omega⟩
    rw [hm]
    simp only [Nat.add_sub_cancel, List.getD_cons_succ, Nat.succ_ne_zero,
      if_false]
    rw [getD_map_add c (windowKeys zws ps) m
      (by rw [windowKeys_length]; omega)]

theorem flatIndexOf_cons_succ (zws : Int) (p : FOVInfo) (ps : List FOVInfo)
    (j : Nat) (t z : Int) (hj : j < ps.length) :
    flatIndexOf zws (p :: ps) (j + 1) t z =
      p.frames * (p.slices - zws + 1) + flatIndexOf zws ps j t z := by
  unfold flatIndexOf
  rw [windowOffset_cons_succ zws p ps j hj]
  simp only [List.getD_cons_succ]
  ring

/-- Direction 1 of the bijection: every flat index in range resolves to a
triple within bounds whose recomputed flat index is the original index. -/
theorem resolveWindow_spec {zws : Int} : ∀ {ps : List FOVInfo},
    (∀ p ∈ ps, 1 ≤ p.frames ∧ zws ≤ p.slices) →
    ∀ {index : Int}, 0 ≤ index → index < maxWindow zws ps →
    (resolveWindow zws ps index).1 < ps.length ∧
    0 ≤ (resolveWindow zws ps index).2.1 ∧
    (resolveWindow zws ps index).2.1 <
      (ps.getD (resolveWindow zws ps index).1 ⟨0, 0⟩).frames ∧
    0 ≤ (resolveWindow zws ps index).2.2 ∧
    (resolveWindow zws ps index).2.2 ≤
      (ps.getD (resolveWindow zws ps index).1 ⟨0, 0⟩).slices - zws ∧
    flatIndexOf zws ps (resolveWindow zws ps index).1
      (resolveWindow zws ps index).2.1 (resolveWindow zws ps index).2.2 =
      index := by
  intro ps
  induction ps with
  | nil =>
      intro _ index h0 h1
      simp [maxWindow, getWindowsAux] at h1
      omega
  | cons p rest ih =>
      intro hc index h0 h1
      have hp := hc p (List.mem_cons_self p rest)
      have hc' := fun q hq => hc q (List.mem_cons_of_mem p hq)
      have hzs : 1 ≤ p.slices - zws + 1 := by omega
      set c := p.frames * (p.slices - zws + 1) with hcdef
      have hcpos : 1 ≤ c := count_pos hp.1 hp.2
      by_cases hcase : index < c
      · have hfw := findWindow_cons_lt hc h0 (hcdef ▸ hcase)
        have hres : resolveWindow zws (p :: rest) index =
            (0, readWindowTZ zws p.slices index) := by
          simp only [resolveWindow, hfw, List.getD_cons_zero]
        rw [hres, readWindowTZ_spec index hzs h0]
        set zs := p.slices - zws + 1 with hzsdef
        have hzsne : zs ≠ 0 := by omega
        have hzspos : (0:Int) < zs := by omega
        dsimp only
        refine ⟨by simp, Int.ediv_nonneg h0 (by omega), ?_, ?_, ?_, ?_⟩
        · simp only [List.getD_cons_zero]
          rw [Int.ediv_lt_iff_lt_mul hzspos]
          omega
        · exact Int.emod_nonneg index hzsne
        · simp only [List.getD_cons_zero]
          have := Int.emod_lt_of_pos index hzspos
          omega
        · unfold flatIndexOf
          rw [windowOffset_zero]
          simp only [List.getD_cons_zero, ← hzsdef]
          have h := Int.ediv_add_emod index zs
          have h2 : index / zs * zs = zs * (index / zs) := by ring
          omega
      · push_neg at hcase
        have hmax' : index - c < maxWindow zws rest := by
          rw [maxWindow_cons, ← hcdef] at h1
          omega
        have h0' : (0:Int) ≤ index - c := by omega
        have hfw := findWindow_cons_ge hc (hcdef ▸ hcase) h1
        have hres : resolveWindow zws (p :: rest) index =
            ((resolveWindow zws rest (index - c)).1 + 1,
             (resolveWindow zws rest (index - c)).2) := by
          simp only [resolveWindow, hfw, List.getD_cons_succ]
        obtain ⟨ih1, ih2, ih3, ih4, ih5, ih6⟩ := ih hc' h0' hmax'
        rw [hres]
        dsimp only
        refine ⟨by simpa using ih1, ih2, by simpa using ih3, ih4,
          by simpa using ih5, ?_⟩
        rw [flatIndexOf_cons_succ zws p rest _ _ _ ih1, ← hcdef, ih6]
        omega

/-- Direction 2 of the bijection: every in-bounds `(position, t, z)` triple
resolves back to itself from its flat index. -/
theorem flatIndexOf_spec {zws : Int} : ∀ {ps : List FOVInfo},
    (∀ p ∈ ps, 1 ≤ p.frames ∧ zws ≤ p.slices) →
    ∀ (j : Nat) (t z : Int), j < ps.length →
    0 ≤ t → t < (ps.getD j ⟨0, 0⟩).frames →
    0 ≤ z → z ≤ (ps.getD j ⟨0, 0⟩).slices - zws →
    0 ≤ flatIndexOf zws ps j t z ∧
    flatIndexOf zws ps j t z < maxWindow zws ps ∧
    resolveWindow zws ps (flatIndexOf zws ps j t z) = (j, t, z) := by
  intro ps
  induction ps with
  | nil =>
      intro _ j t z hj
      simp at hj
  | cons p rest ih =>
      intro hc j t z hj ht0 ht1 hz0 hz1
      have hp := hc p (List.mem_cons_self p rest)
      have hc' := fun q hq => hc q (List.mem_cons_of_mem p hq)
      have hzs : 1 ≤ p.slices - zws + 1 := by omega
      set c := p.frames * (p.slices - zws + 1) with hcdef
      have hcpos : 1 ≤ c := count_pos hp.1 hp.2
      have hrestmax : 0 ≤ maxWindow zws rest := maxWindow_nonneg hc'
      cases j with
      | zero =>
          simp only [List.getD_cons_zero] at ht1 hz1
          set zs := p.slices - zws + 1 with hzsdef
          have hzspos : (0:Int) < zs := by omega
          have hflat : flatIndexOf zws (p :: rest) 0 t z = t * zs + z := by
            unfold flatIndexOf
            rw [windowOffset_zero]
            simp
          have hnn : 0 ≤ t * zs + z := by
            have := mul_nonneg ht0 (le_of_lt hzspos)
            omega
          have hltc : t * zs + z < c := by
            have h1 : t * zs ≤ (p.frames - 1) * zs := by
              apply mul_le_mul_of_nonneg_right (by omega) (by omega)
            have h2 : (p.frames - 1) * zs = c - zs := by
              rw [hcdef]
              ring
            omega
          refine ⟨by rw [hflat]; exact hnn, ?_, ?_⟩
          · rw [hflat, maxWindow_cons, ← hcdef]
            omega
          · rw [hflat]
            have hfw := findWindow_cons_lt hc hnn (hcdef ▸ hltc)
            simp only [resolveWindow, hfw, List.getD_cons_zero]
            rw [readWindowTZ_spec _ hzs hnn, ← hzsdef]
            have hdiv : (t * zs + z) / zs = t := by
              have h := Int.add_mul_ediv_right z t (show zs ≠ 0 by omega)
              have hz : z / zs = 0 := Int.ediv_eq_zero_of_lt hz0 (by omega)
              rw [add_comm (t * zs) z, h, hz]
              omega
            have hmod : (t * zs + z) % zs = z := by
              have h := @Int.add_mul_emod_self z t zs
              rw [add_comm (t * zs) z, h]
              exact Int.emod_eq_of_lt hz0 (by omega)
            rw [hdiv, hmod]
      | succ m =>
          have hm : m < rest.length := by simpa using hj
          simp only [List.getD_cons_succ] at ht1 hz1
          obtain ⟨ih1, ih2, ih3⟩ := ih hc' m t z hm ht0 ht1 hz0 hz1
          have hflat : flatIndexOf zws (p :: rest) (m + 1) t z =
              c + flatIndexOf zws rest m t z := by
            rw [flatIndexOf_cons_succ zws p rest m t z hm, ← hcdef]
          refine ⟨by rw [hflat]; omega, ?_, ?_⟩
          · rw [hflat, maxWindow_cons, ← hcdef]
            omega
          · rw [hflat]
            have hge : c ≤ c + flatIndexOf zws rest m t z := by omega
            have hlt : c + flatIndexOf zws rest m t z <
                maxWindow zws (p :: rest) := by
              rw [maxWindow_cons, ← hcdef]
              omega
            have hfw := findWindow_cons_ge hc (hcdef ▸ hge) hlt
            have hsub : c + flatIndexOf zws rest m t z - c =
                flatIndexOf zws rest m t z := by omega
            rw [hsub] at hfw
            simp only [resolveWindow, hfw, List.getD_cons_succ]
            simp only [resolveWindow] at ih3
            have hfst : (findWindow zws rest (flatIndexOf zws rest m t z)).1
                = m := congrArg Prod.fst ih3
            rw [hfst] at ih3 ⊢
            simp only [Prod.mk.injEq] at ih3 ⊢
            exact ⟨trivial, ih3.2⟩

/-! ## C1: dataset length is the sum of per-position window counts -/

/-- C1: each position with `T` frames and `Z` slices contributes
`T * (Z - w + 1)` windows, and `__len__` (i.e. `_max_window`) equals the
sum of these per-position counts over all positions. -/
theorem sliding_window_length_eq_sum (zws : Int) (ps : List FOVInfo) :
    maxWindow zws ps =
      (ps.map (fun p => p.frames * (p.slices - zws + 1))).sum := by
  simpa using getWindowsAux_snd zws ps 0

/-! ## C2: window resolution is a bijection -/

/-- C2: for every flat index in `[0, length)`, resolving via `_find_window`
and the Z-first time/z decomposition of `_read_img_window` yields exactly
one `(position, t, z)` triple with `0 ≤ t < frames` and
`0 ≤ z ≤ slices - w`, and recomputing the flat index (the position's
cumulative offset plus `t * (slices - w + 1)` plus `z`) recovers the
original index. -/
theorem sliding_window_resolution_bijection
    (zws : Int) (ps : List FOVInfo)
    (hc : ∀ p ∈ ps, 1 ≤ p.frames ∧ zws ≤ p.slices)
    (index : Int) (h0 : 0 ≤ index) (h1 : index < maxWindow zws ps)
    (j : Nat) (t z : Int)
    (hres : resolveWindow zws ps index = (j, t, z)) :
    (j < ps.length ∧ 0 ≤ t ∧ t < (ps.getD j ⟨0, 0⟩).frames ∧
      0 ≤ z ∧ z ≤ (ps.getD j ⟨0, 0⟩).slices - zws ∧
      flatIndexOf zws ps j t z = index) ∧
    ∀ j2 : Nat, ∀ t2 z2 : Int,
      j2 < ps.length → 0 ≤ t2 → t2 < (ps.getD j2 ⟨0, 0⟩).frames →
      0 ≤ z2 → z2 ≤ (ps.getD j2 ⟨0, 0⟩).slices - zws →
      flatIndexOf zws ps j2 t2 z2 = index →
      j2 = j ∧ t2 = t ∧ z2 = z := by
  have hmain := resolveWindow_spec hc h0 h1
  rw [hres] at hmain
  simp only at hmain
  refine ⟨hmain, ?_⟩
  intro j2 t2 z2 hj2 ht0 ht1 hz0 hz1 hflat
  have h2 := (flatIndexOf_spec hc j2 t2 z2 hj2 ht0 ht1 hz0 hz1).2.2
  rw [hflat, hres] at h2
  have hj : j = j2 := congrArg Prod.fst h2
  have htz := congrArg Prod.snd h2
  simp only [Prod.mk.injEq] at htz
  exact ⟨hj.symm, htz.1.symm, htz.2.symm⟩

theorem sliding_window_resolution_bijection_witness :
    flatIndexOf 3 [⟨2, 4⟩, ⟨1, 5⟩] 1 0 1 = 5 := by
  have hres : resolveWindow 3 [⟨2, 4⟩, ⟨1, 5⟩] 5 = (1, 0, 1) := by
    simp only [resolveWindow, findWindow_eq_countP]
    decide
  have h := sliding_window_resolution_bijection 3 [⟨2, 4⟩, ⟨1, 5⟩]
    (by decide) 5 (by decide) (by decide) 1 0 1 hres
  exact h.1.2.2.2.2.2

/-! ## C3: a position with fewer slices than the window size -/

/-- C3: with positions `(T=1, Z=5), (T=1, Z=1), (T=1, Z=5)` and z-window
size `3`, the middle position has fewer slices than the window.
`_get_windows` raises no error and excludes nothing: it records the
cumulative keys `[3, 2, 5]` (the degenerate position subtracts from the
running count), reports length `5` instead of `6`, and flat index `2`
resolves to the degenerate position (index `1`) with window offset
`tz = -1` and time index `t = 1`, which is out of range for a
single-frame position — so the degenerate position is reachable and later
positions are miscounted, contradicting the claimed exclusion-or-error
behaviour. -/
theorem degenerate_position_reachable :
    windowKeys 3 [⟨1, 5⟩, ⟨1, 1⟩, ⟨1, 5⟩] = [3, 2, 5] ∧
    maxWindow 3 [⟨1, 5⟩, ⟨1, 1⟩, ⟨1, 5⟩] = 5 ∧
    findWindow 3 [⟨1, 5⟩, ⟨1, 1⟩, ⟨1, 5⟩] 2 = (1, -1) ∧
    resolveWindow 3 [⟨1, 5⟩, ⟨1, 1⟩, ⟨1, 5⟩] 2 = (1, 1, 0) ∧
    ([⟨1, 5⟩, ⟨1, 1⟩, ⟨1, 5⟩] : List FOVInfo).getD 1 ⟨0, 0⟩ =
      ⟨1, 1⟩ := by
  refine ⟨by decide, by decide, ?_, ?_, by decide⟩
  · rw [findWindow_eq_countP]
    decide
  · simp only [resolveWindow, findWindow_eq_countP]
    decide

/-! ## Batch collation (`_collate_samples` in `hcs.py` / `hcs_ram.py`) -/

/-- Tensor shapes; collation in the claims is about shapes. -/
abbrev Shape := List Nat

/-- A value in a per-sample mapping handed to `_collate_samples`: either a
single tensor or a list of tensors (the `isinstance(sample[key], Sequence)`
distinction, as with `train_patches_per_stack > 1`). -/
inductive CVal where
  | single (t : Shape)
  | many (ts : List Shape)
deriving DecidableEq, Repr

/-- A sample as consumed by `_collate_samples`: a dictionary from key to
tensor-or-list, modelled as an association list in insertion order. -/
abbrev CSample := List (String × CVal)

/-- `monai.data.utils.collate_meta_tensor`, modelled at shape level from
its documented stacking behaviour (external collaborator): stacking `n`
equal-shaped tensors of shape `s` yields shape `n :: s`; an empty or
ragged list raises. -/
def collateMetaTensor : List Shape → Option Shape
  | [] => none
  | s :: rest =>
      if rest.all (fun t => decide (t = s)) then some ((rest.length + 1) :: s)
      else none

/-- The per-sample flattening in the `_collate_samples` loop body:
a list-valued entry is `extend`-ed, a single tensor is `append`-ed. -/
def cvalData : CVal → List Shape
  | .single t => [t]
  | .many ts => ts

/-- The inner loop of `_collate_samples`: read `sample[key]` from every
sample of the batch in order; a missing key is a `KeyError`, modelled as
`none`. -/
def gatherKey (key : String) : List CSample → Option (List CVal)
  | [] => some []
  | s :: rest =>
      match s.lookup key, gatherKey key rest with
      | some v, some vs => some (v :: vs)
      | _, _ => none

/-- The outer loop of `_collate_samples`: for each key of `batch[0]`,
gather the per-sample values, flatten list-valued entries into the batch
dimension (`extend` vs `append`), and collate the flat list. -/
def collateKeys (batch : List CSample) :
    List String → Option (List (String × Shape))
  | [] => some []
  | key :: ks =>
      (gatherKey key batch).bind (fun vals =>
        (collateMetaTensor ((vals.map cvalData).flatten)).bind (fun c =>
          (collateKeys batch ks).map (fun rest => (key, c) :: rest)))

/-- `_collate_samples`: iterate over the keys of `batch[0]` only; keys
absent from `batch[0]` are never visited.  `batch[0]` on an empty batch
raises (`none`). -/
def collateSamples (batch : List CSample) : Option (List (String × Shape)) :=
  match batch with
  | [] => none
  | first :: _ => collateKeys batch (first.map Prod.fst)

theorem gatherKey_replicate (key : String) (s : CSample) (v : CVal)
    (h : s.lookup key = some v) :
    ∀ n, gatherKey key (List.replicate n s) = some (List.replicate n v) := by
  intro n
  induction n with
  | zero => rfl
  | succ k ih =>
      rw [List.replicate_succ, List.replicate_succ, gatherKey, h, ih]

theorem flatten_replicate_replicate {α : Type} (s : α) :
    ∀ n m, (List.replicate n (List.replicate m s)).flatten =
      List.replicate (n * m) s := by
  intro n m
  induction n with
  | zero => simp
  | succ k ih =>
      rw [List.replicate_succ, List.flatten_cons, ih, Nat.succ_mul,
        Nat.add_comm, ← List.replicate_add]

theorem collateMetaTensor_replicate (s : Shape) (n : Nat) (hn : 1 ≤ n) :
    collateMetaTensor (List.replicate n s) = some (n :: s) := by
  obtain ⟨k, rfl⟩ : ∃ k, n = k + 1 := ⟨n - 1, by omega⟩
  rw [List.replicate_succ, collateMetaTensor]
  have hall : (List.replicate k s).all (fun t => decide (t = s)) = true := by
    rw [List.all_eq_true]
    intro t ht
    simp [List.eq_of_mem_replicate ht]
  rw [hall]
  simp

/-! ## C4: collation shapes -/

/-- C4: for a batch of `n` samples sharing the key `"source"`, a single
tensor of shape `s` per sample collates to shape `n :: s`, and a list of
`m` tensors of shape `s` per sample is flattened into the batch dimension
and collates to shape `(n * m) :: s`. -/
theorem collate_samples_shapes (n m : Nat) (hn : 1 ≤ n) (hm : 1 ≤ m)
    (s : Shape) :
    collateSamples (List.replicate n [("source", CVal.single s)]) =
      some [("source", n :: s)] ∧
    collateSamples
        (List.replicate n [("source", CVal.many (List.replicate m s))]) =
      some [("source", (n * m) :: s)] := by
  obtain ⟨k, rfl⟩ : ∃ k, n = k + 1 := ⟨n - 1, by omega⟩
  constructor
  · rw [List.replicate_succ, collateSamples, ← List.replicate_succ]
    have hlookup : ([("source", CVal.single s)] : CSample).lookup "source" =
        some (CVal.single s) := by
      simp [List.lookup]
    have hgather := gatherKey_replicate "source" [("source", CVal.single s)]
      (CVal.single s) hlookup (k + 1)
    have hjoin : ((List.replicate (k + 1) (CVal.single s)).map
        cvalData).flatten = List.replicate (k + 1) s := by
      rw [List.map_replicate]
      simpa [cvalData] using flatten_replicate_replicate s (k + 1) 1
    simp only [List.map_cons, List.map_nil, collateKeys, hgather, hjoin,
      Option.some_bind, Option.map_some',
      collateMetaTensor_replicate s (k + 1) (by omega : 1 ≤ k + 1)]
  · rw [List.replicate_succ, collateSamples, ← List.replicate_succ]
    have hlookup : ([("source", CVal.many (List.replicate m s))] :
        CSample).lookup "source" = some (CVal.many (List.replicate m s)) := by
      simp [List.lookup]
    have hgather := gatherKey_replicate "source"
      [("source", CVal.many (List.replicate m s))]
      (CVal.many (List.replicate m s)) hlookup (k + 1)
    have hjoin : ((List.replicate (k + 1)
        (CVal.many (List.replicate m s))).map cvalData).flatten =
        List.replicate ((k + 1) * m) s := by
      rw [List.map_replicate]
      simpa [cvalData] using flatten_replicate_replicate s (k + 1) m
    have hmul : 1 ≤ (k + 1) * m := by
      have := Nat.mul_le_mul (le_refl (k + 1)) hm
      omega
    simp only [List.map_cons, List.map_nil, collateKeys, hgather, hjoin,
      Option.some_bind, Option.map_some',
      collateMetaTensor_replicate s ((k + 1) * m) hmul]

theorem collate_samples_shapes_witness :
    collateSamples
        (List.replicate 3 [("source", CVal.single [2, 1, 8, 8])]) =
      some [("source", [3, 2, 1, 8, 8])] ∧
    collateSamples
        (List.replicate 3
          [("source", CVal.many (List.replicate 2 [2, 1, 8, 8]))]) =
      some [("source", [6, 2, 1, 8, 8])] := by
  have h := collate_samples_shapes 3 2 (by decide) (by decide) [2, 1, 8, 8]
  exact h

/-! ## C5: key-set mismatches at collation -/

theorem gatherKey_eq_none {key : String} {s2 : CSample}
    (hmiss : s2.lookup key = none) :
    ∀ batch : List CSample, s2 ∈ batch → gatherKey key batch = none := by
  intro batch
  induction batch with
  | nil => intro h; cases h
  | cons b t ih =>
      intro hmem
      rcases List.mem_cons.mp hmem with rfl | hmem2
      · rw [gatherKey, hmiss]
      · rw [gatherKey, ih hmem2]
        cases b.lookup key <;> rfl

theorem option_bind_const_none {α β : Type} (o : Option α) :
    (o.bind fun _ => (none : Option β)) = none := by
  cases o <;> rfl

theorem collateKeys_eq_none {key : String} {batch : List CSample}
    (hg : gatherKey key batch = none) :
    ∀ ks : List String, key ∈ ks → collateKeys batch ks = none := by
  intro ks
  induction ks with
  | nil => intro h; cases h
  | cons k2 t ih =>
      intro hmem
      rcases List.mem_cons.mp hmem with rfl | hmem2
      · rw [collateKeys, hg]
        rfl
      · rw [collateKeys, ih hmem2]
        simp only [Option.map_none', option_bind_const_none]

/-- C5 counterexample: a batch whose second sample carries an extra key
`"b"` that the first sample lacks (so the samples do not share the same
key set) still collates successfully — `_collate_samples` only iterates
over the keys of `batch[0]` and silently drops the extra key, instead of
failing. -/
theorem collate_mismatched_keys_succeeds :
    (List.lookup "b" ([("a", CVal.single [2])] : CSample) = none) ∧
    (List.lookup "b"
      ([("a", CVal.single [2]), ("b", CVal.single [2])] : CSample) =
        some (CVal.single [2])) ∧
    collateSamples
        [[("a", CVal.single [2])],
         [("a", CVal.single [2]), ("b", CVal.single [2])]] =
      some [("a", [2, 2])] := by
  refine ⟨by decide, by decide, by decide⟩

/-- C5 amended: only a key of the *first* sample that is absent from some
sample of the batch makes `_collate_samples` fail (`KeyError`); keys
present in a later sample but not in `batch[0]` are silently ignored. -/
theorem collate_samples_missing_first_key
    (first : CSample) (rest : List CSample) (key : String) (s2 : CSample)
    (hk : key ∈ first.map Prod.fst) (hs : s2 ∈ first :: rest)
    (hmiss : s2.lookup key = none) :
    collateSamples (first :: rest) = none := by
  rw [collateSamples]
  exact collateKeys_eq_none (gatherKey_eq_none hmiss _ hs) _ hk

theorem collate_samples_missing_first_key_witness :
    collateSamples
        [[("a", CVal.single [2]), ("b", CVal.single [2])],
         [("a", CVal.single [2])]] = none := by
  exact collate_samples_missing_first_key
    [("a", CVal.single [2]), ("b", CVal.single [2])]
    [[("a", CVal.single [2])]] "b" [("a", CVal.single [2])]
    (by decide) (by decide) (by decide)

/-! ## C6: train/validation split in `_setup_fit` -/

/-- The split arithmetic of `HCSDataModule._setup_fit` and
`CachedDataModule._setup_fit`:
`num_train_fovs = int(len(positions) * split_ratio)`.  The split ratio is
modelled as an exact rational; for the nonnegative product `int()`
truncation coincides with the floor. -/
def numTrainFovs (n : Nat) (r : ℚ) : Nat := (Int.floor ((n : ℚ) * r)).toNat

/-- The position-level split after the caller-controlled permutation:
`positions[:num_train_fovs]` feeds the training dataset and
`positions[num_train_fovs:]` the validation dataset. -/
def splitFit {α : Type} (positions : List α) (r : ℚ) : List α × List α :=
  (positions.take (numTrainFovs positions.length r),
   positions.drop (numTrainFovs positions.length r))

theorem numTrainFovs_le {n : Nat} {r : ℚ} (h1 : r < 1) :
    numTrainFovs n r ≤ n := by
  unfold numTrainFovs
  rw [Int.toNat_le]
  have hle : (n : ℚ) * r ≤ (n : ℚ) := by
    rcases Nat.eq_zero_or_pos n with h | h
    · simp [h]
    · have hn : (0:ℚ) < n := by exact_mod_cast h
      nlinarith
  calc (Int.floor ((n : ℚ) * r)) ≤ Int.floor ((n : ℚ)) :=
        Int.floor_le_floor hle
    _ = (n : Int) := Int.floor_natCast n
    _ ≤ (n : Int) := le_refl _

/-- C6: for a fit-stage split with ratio `r ∈ (0,1)` over `N` (distinct,
already permuted) positions, exactly `⌊r·N⌋` positions go to training and
the remaining `N - ⌊r·N⌋` to validation, the two sets are disjoint, and
together they are exactly the input positions. -/
theorem setup_fit_split_counts {α : Type} (positions : List α) (r : ℚ)
    (h0 : 0 < r) (h1 : r < 1) (hnd : positions.Nodup) :
    (splitFit positions r).1.length = numTrainFovs positions.length r ∧
    (splitFit positions r).2.length =
      positions.length - numTrainFovs positions.length r ∧
    (splitFit positions r).1.Disjoint (splitFit positions r).2 ∧
    (splitFit positions r).1 ++ (splitFit positions r).2 = positions := by
  refine ⟨?_, ?_, ?_, ?_⟩
  · simp only [splitFit, List.length_take]
    exact Nat.min_eq_left (numTrainFovs_le h1)
  · simp [splitFit, List.length_drop]
  · exact List.disjoint_take_drop hnd (le_refl _)
  · exact List.take_append_drop _ positions

/-- The ratio `0.8` as an exact rational. -/
def r45 : ℚ := ⟨4, 5, by decide, by decide⟩

theorem setup_fit_split_counts_witness :
    (splitFit (List.range 10) r45).1.length = 8 ∧
    (splitFit (List.range 10) r45).2.length = 2 := by
  have h := setup_fit_split_counts (List.range 10) r45
    (by decide) (by decide) (List.nodup_range 10)
  have hn : numTrainFovs (List.range 10).length r45 = 8 := by
    with_unfolding_all decide
  refine ⟨?_, ?_⟩
  · rw [h.1, hn]
  · rw [h.2.1, hn]
    decide

/-! ## C7: `NormalizeSampled` and its inverse (`light/data.py`) -/

/-- The per-channel statistics read by `NormalizeSampled._stat`
(`dataset_statistics` level): median and interquartile range.  Float
tensor values are modelled as exact rationals. -/
structure NormStat where
  median : ℚ
  iqr : ℚ
deriving DecidableEq, Repr

/-- `self._stat(key) = self.norm_meta[self.channels[key]]["dataset_statistics"]`. -/
def statOf (normMeta : String → NormStat) (channels : String → String)
    (key : String) : NormStat :=
  normMeta (channels key)

/-- A sample for the normalization transform: role key to tensor values. -/
abbrev NSample := List (String × List ℚ)

/-- Elementwise `(d[key] - median) / iqr` of `NormalizeSampled.__call__`. -/
def normalizeOne (st : NormStat) (v : List ℚ) : List ℚ :=
  v.map (fun x => (x - st.median) / st.iqr)

/-- Elementwise `(d[key] * iqr) + median` computed by
`NormalizeSampled.inverse`. -/
def denormalizeOne (st : NormStat) (v : List ℚ) : List ℚ :=
  v.map (fun x => x * st.iqr + st.median)

/-- `d[key] = f(d[key])` on a dict copy; a missing key is a `KeyError`. -/
def nsUpdate (d : NSample) (key : String) (f : List ℚ → List ℚ) :
    Option NSample :=
  match d.lookup key with
  | none => none
  | some v => some (d.map (fun kv => if kv.1 = key then (kv.1, f v) else kv))

/-- `NormalizeSampled.__call__`: normalize every configured key of a copy
of the input dict and return it. -/
def normalizeSampled (normMeta : String → NormStat)
    (channels : String → String) : List String → NSample → Option NSample
  | [], d => some d
  | key :: ks, d =>
      (nsUpdate d key (normalizeOne (statOf normMeta channels key))).bind
        (normalizeSampled normMeta channels ks)

/-- The denormalized dict that the body of `NormalizeSampled.inverse`
computes. -/
def denormalizeSampled (normMeta : String → NormStat)
    (channels : String → String) : List String → NSample → Option NSample
  | [], d => some d
  | key :: ks, d =>
      (nsUpdate d key (denormalizeOne (statOf normMeta channels key))).bind
        (denormalizeSampled normMeta channels ks)

/-- `NormalizeSampled.inverse`: the source computes the denormalized dict
`d` but has no `return` statement, so the Python function returns `None`
for every input, discarding `d`. -/
def normalizeSampledInverse (normMeta : String → NormStat)
    (channels : String → String) (keys : List String) (d : NSample) :
    Option NSample :=
  let _d := denormalizeSampled normMeta channels keys d
  none

/-- C7: the normalize/inverse round trip does not return the original
values, because `inverse` lacks a `return`.  At the claimed input (constant
tensor `5`, median `5`, IQR `1`): `__call__` yields the constant `0`
tensor as claimed, the dict that `inverse` computes (and then drops) would
restore the constant `5` tensor, but `inverse` itself returns `None` for
every input, so inverting the normalized sample does not yield `5.0`. -/
theorem normalize_inverse_lost_return :
    normalizeSampled (fun _ => ⟨5, 1⟩) (fun c => c) ["target"]
        [("target", [5, 5])] = some [("target", [0, 0])] ∧
    denormalizeSampled (fun _ => ⟨5, 1⟩) (fun c => c) ["target"]
        [("target", [0, 0])] = some [("target", [5, 5])] ∧
    (∀ nm ch keys d, normalizeSampledInverse nm ch keys d = none) ∧
    normalizeSampledInverse (fun _ => ⟨5, 1⟩) (fun c => c) ["target"]
        [("target", [0, 0])] ≠ some [("target", [5, 5])] := by
  refine ⟨by with_unfolding_all decide, by with_unfolding_all decide,
    fun nm ch keys d => rfl, by simp [normalizeSampledInverse]⟩

/-! ## C8: `CachedDataset` cache pre-allocation (`hcs_ram.py`, `HEAD` side
of the merge conflict, retained as the canonical variant) -/

/-- NumPy dtypes that can appear as a position's array dtype. -/
inductive NpDtype where
  | float32 | float64 | int32 | int64 | uint8 | uint16 | other
deriving DecidableEq, Repr

/-- PyTorch dtypes appearing in `numpy_to_torch_dtype`. -/
inductive TorchDtype where
  | float32 | float64 | int32 | int64 | int8 | int16
deriving DecidableEq, Repr

/-- The `numpy_to_torch_dtype` mapping of `hcs_ram.py` (note: it maps the
unsigned `uint8`/`uint16` to the signed `int8`/`int16`). -/
def numpyToTorchDtype : NpDtype → Option TorchDtype
  | .float32 => some .float32
  | .float64 => some .float64
  | .int32 => some .int32
  | .int64 => some .int64
  | .uint8 => some .int8
  | .uint16 => some .int16
  | .other => none

/-- A position as seen by `_position_mapping`: the array's dtype and its
5-dimensional shape `(T, C, Z, Y, X)`. -/
structure RamPos where
  dtype : NpDtype
  shape : List Nat
deriving DecidableEq, Repr

/-- `self.position_shape_zyx = pos.data.shape[-3:]` after the
`_position_mapping` loop: `pos` is the loop variable, i.e. the **last**
position (a `NameError` for an empty list; modelled as `[]`). -/
def positionShapeZYX (positions : List RamPos) : List Nat :=
  match positions.getLast? with
  | some p => p.shape.drop (p.shape.length - 3)
  | none => []

/-- `self._cache_dtype = numpy_to_torch_dtype.get(pos.data.dtype,
torch.float32)` after the `_position_mapping` loop: again the **last**
position's dtype, defaulting to `float32` when unmapped. -/
def cacheDtype (positions : List RamPos) : TorchDtype :=
  match positions.getLast? with
  | some p => (numpyToTorchDtype p.dtype).getD .float32
  | none => .float32

/-- `total_ch_idx = source_ch_idx + target_ch_idx` from
`CachedDataset.__init__`: all referenced source and target channels. -/
def totalChannels (sourceCh : List Nat) (targetCh : Option (List Nat)) :
    List Nat :=
  match targetCh with
  | some t => sourceCh ++ t
  | none => sourceCh

/-- The metadata of the tensor allocated by `_init_cache_dataset`:
`torch.zeros((len(positions), 1, len(total_ch_idx)) + position_shape_zyx,
dtype=_cache_dtype)`. -/
structure CacheTensor where
  shape : List Nat
  dtype : TorchDtype
deriving DecidableEq, Repr

def initCacheDataset (positions : List RamPos) (totalChIdx : List Nat) :
    CacheTensor :=
  { shape := [positions.length, 1, totalChIdx.length] ++
      positionShapeZYX positions,
    dtype := cacheDtype positions }

/-- C8 counterexample: with a first position of dtype `float64` and a last
position of dtype `uint8`, the cache dtype is taken from the **last**
position (giving `int8` through the mapping), not from the first position
(which would give `float64`), refuting the claim that the dtype is
inferred from the first position's array dtype. -/
theorem cache_dtype_not_from_first :
    cacheDtype [⟨.float64, [1, 2, 4, 8, 8]⟩, ⟨.uint8, [1, 2, 4, 8, 8]⟩] =
      TorchDtype.int8 ∧
    (numpyToTorchDtype NpDtype.float64).getD .float32 =
      TorchDtype.float64 ∧
    cacheDtype [⟨.float64, [1, 2, 4, 8, 8]⟩, ⟨.uint8, [1, 2, 4, 8, 8]⟩] ≠
      (numpyToTorchDtype NpDtype.float64).getD .float32 := by
  refine ⟨by decide, by decide, by decide⟩

/-- C8 amended: `_init_cache_dataset` pre-allocates a single tensor of
shape `(num_positions, 1, num_channels, Z, Y, X)`, where `num_channels`
counts all referenced source and target channels and `(Z, Y, X)` is the
trailing shape of the **last** position; its dtype is mapped with
`numpy_to_torch_dtype` from the **last** position's array dtype,
defaulting to 32-bit float when that dtype is not in the mapping. -/
theorem cache_preallocation_spec (positions : List RamPos)
    (sourceCh targetCh : List Nat) (p : RamPos)
    (hlast : positions.getLast? = some p) :
    (initCacheDataset positions
        (totalChannels sourceCh (some targetCh))).shape =
      [positions.length, 1, sourceCh.length + targetCh.length] ++
        p.shape.drop (p.shape.length - 3) ∧
    (initCacheDataset positions
        (totalChannels sourceCh (some targetCh))).dtype =
      (numpyToTorchDtype p.dtype).getD .float32 := by
  unfold initCacheDataset positionShapeZYX cacheDtype totalChannels
  rw [hlast]
  simp

theorem cache_preallocation_spec_witness :
    (initCacheDataset
        [⟨.float64, [1, 2, 4, 8, 8]⟩, ⟨.uint8, [1, 2, 4, 8, 8]⟩]
        (totalChannels [0] (some [1]))).shape = [2, 1, 2, 4, 8, 8] ∧
    (initCacheDataset
        [⟨.float64, [1, 2, 4, 8, 8]⟩, ⟨.uint8, [1, 2, 4, 8, 8]⟩]
        (totalChannels [0] (some [1]))).dtype = TorchDtype.int8 := by
  have h := cache_preallocation_spec
    [⟨.float64, [1, 2, 4, 8, 8]⟩, ⟨.uint8, [1, 2, 4, 8, 8]⟩]
    [0] [1] ⟨.uint8, [1, 2, 4, 8, 8]⟩ (by decide)
  refine ⟨?_, ?_⟩
  · rw [h.1]
    decide
  · rw [h.2]
    decide

/-! ## Sample assembly in `__getitem__` (`hcs.py` / `hcs_ram.py`) -/

/-- A value of the `sample_images` dict: a per-channel tensor or the
normalization metadata stored under `"norm_meta"`. -/
inductive DVal (V ν : Type) where
  | ten (v : V)
  | meta (m : ν)
deriving DecidableEq

/-- The `sample_images` dict (Python insertion order). -/
abbrev ImgDict (V ν : Type) := List (String × DVal V ν)

/-- A transform returns either a single mapping or a list of mappings
(multi-crop sampling). -/
abbrev TransOut (V ν : Type) := ImgDict V ν ⊕ List (ImgDict V ν)

def dictContains {α : Type} (d : List (String × α)) (key : String) : Bool :=
  d.any (fun kv => kv.1 == key)

/-- Python dict assignment: overwrite in place, else append. -/
def dictInsert {α : Type} (d : List (String × α)) (key : String) (v : α) :
    List (String × α) :=
  if dictContains d key then
    d.map (fun kv => if kv.1 == key then (kv.1, v) else kv)
  else d ++ [(key, v)]

/-- Python `del d[key]`. -/
def dictErase {α : Type} (d : List (String × α)) (key : String) :
    List (String × α) :=
  d.filter (fun kv => !(kv.1 == key))

/-- The `sample_images` dict right before the transform runs:
`{k: v for k, v in zip(ch_names, images)}` with
`ch_names = source + target`, then
`sample_images["weight"] = sample_images[target[0]]` when a target is
configured (a `KeyError`/`IndexError` is `none`), then
`sample_images["norm_meta"] = norm_meta` when metadata is present. -/
def preTransformImages {V ν : Type} (srcCh : List String)
    (tgtCh : Option (List String)) (images : List V)
    (normMeta : Option ν) : Option (ImgDict V ν) :=
  let chNames := srcCh ++ (match tgtCh with | some t => t | none => [])
  let d0 : ImgDict V ν :=
    (chNames.zip images).map (fun kv => (kv.1, DVal.ten kv.2))
  let dw : Option (ImgDict V ν) :=
    match tgtCh with
    | none => some d0
    | some [] => none
    | some (t0 :: _) =>
        match d0.lookup t0 with
        | none => none
        | some v => some (dictInsert d0 "weight" v)
  dw.map (fun d =>
    match normMeta with
    | some m => dictInsert d "norm_meta" (DVal.meta m)
    | none => d)

/-- `if "weight" in sample_images: del sample_images["weight"]` after the
transform.  When the transform returned a *list* of mappings, the Python
membership test `"weight" in sample_images` checks list elements, is
false, and nothing is deleted. -/
def dropWeight {V ν : Type} : TransOut V ν → TransOut V ν
  | .inl d =>
      if dictContains d "weight" then .inl (dictErase d "weight") else .inl d
  | .inr l => .inr l

/-- `sample_images[ch][0]`: the entry must exist and be a tensor. -/
def lookupTen {V ν : Type} (d : ImgDict V ν) (ch : String) : Option V :=
  match d.lookup ch with
  | some (DVal.ten v) => some v
  | _ => none

/-- The per-channel gather of `_stack_channels` on a single mapping. -/
def lookupAll {V ν : Type} : List String → ImgDict V ν → Option (List V)
  | [], _ => some []
  | ch :: rest, d =>
      match lookupTen d ch, lookupAll rest d with
      | some v, some vs => some (v :: vs)
      | _, _ => none

/-- `_stack_channels` on a list of mappings (one stack per crop). -/
def lookupAllCrops {V ν : Type} (chs : List String) :
    List (ImgDict V ν) → Option (List (List V))
  | [] => some []
  | d :: ds =>
      match lookupAll chs d, lookupAllCrops chs ds with
      | some vs, some vss => some (vs :: vss)
      | _, _ => none

/-- `_stack_channels`: stack the requested channels of either a single
mapping or each mapping of a list.  `torch.stack` itself is abstracted as
the gathered per-channel list. -/
def stackChannels {V ν : Type} (chs : List String) :
    TransOut V ν → Option (List V ⊕ List (List V))
  | .inl d => (lookupAll chs d).map Sum.inl
  | .inr l => (lookupAllCrops chs l).map Sum.inr

/-- A value of the returned sample dict. -/
inductive SVal (V ν ι : Type) where
  | idx (i : ι)
  | meta (m : Option ν)
  | ten (vs : List V)
  | crops (vss : List (List V))
deriving DecidableEq

def stackedToSVal {V ν ι : Type} : List V ⊕ List (List V) → SVal V ν ι
  | .inl vs => .ten vs
  | .inr vss => .crops vss

/-- `SlidingWindowDataset.__getitem__` after `_read_img_window` (shared by
`CachedDataset.__getitem__`): build `sample_images`, alias the first
target channel under `"weight"`, run the transform (if any), remove the
`"weight"` entry from a single mapping, and assemble the returned sample
with keys `"index"`, `"source"`, `"norm_meta"` and, when a target is
configured, `"target"`. -/
def getItemSample {V ν ι : Type} (srcCh : List String)
    (tgtCh : Option (List String)) (images : List V) (normMeta : Option ν)
    (sampleIdx : ι) (transform : Option (ImgDict V ν → TransOut V ν)) :
    Option (List (String × SVal V ν ι)) :=
  (preTransformImages srcCh tgtCh images normMeta).bind (fun d =>
    let out : TransOut V ν :=
      match transform with
      | some f => f d
      | none => Sum.inl d
    let out2 := dropWeight out
    (stackChannels srcCh out2).bind (fun src =>
      match tgtCh with
      | none =>
          some [("index", SVal.idx sampleIdx),
                ("source", stackedToSVal src),
                ("norm_meta", SVal.meta normMeta)]
      | some tcs =>
          (stackChannels tcs out2).map (fun tgt =>
            [("index", SVal.idx sampleIdx),
             ("source", stackedToSVal src),
             ("norm_meta", SVal.meta normMeta),
             ("target", stackedToSVal tgt)])))

/-! ## C9: the reserved `"weight"` key -/

theorem lookup_append {α : Type} (l l2 : List (String × α)) (k : String) :
    (l ++ l2).lookup k = ((l.lookup k).orElse (fun _ => l2.lookup k)) := by
  induction l with
  | nil => simp [List.lookup]
  | cons a t ih =>
      obtain ⟨k2, v2⟩ := a
      simp only [List.cons_append, List.lookup]
      cases h : (k == k2) with
      | true => simp
      | false => simpa using ih

theorem lookup_eq_none_of_contains_false {α : Type}
    (d : List (String × α)) (key : String)
    (h : dictContains d key = false) : d.lookup key = none := by
  induction d with
  | nil => rfl
  | cons a t ih =>
      obtain ⟨k2, v2⟩ := a
      simp only [dictContains, List.any_cons, Bool.or_eq_false_iff] at h
      simp only [List.lookup]
      have hne : (key == k2) = false := by
        cases hbe : (k2 == key)
        · cases hbk : (key == k2)
          · rfl
          · exact absurd (beq_iff_eq.mp hbk) (fun he => by
              simp [he] at hbe)
        · exact absurd hbe (by simp [h.1])
      rw [hne]
      exact ih (by simpa [dictContains] using h.2)

theorem contains_false_of_not_mem_names {V ν : Type} (chNames : List String)
    (images : List V) (key : String) (hk : key ∉ chNames) :
    dictContains
      ((chNames.zip images).map
        (fun kv => (kv.1, (DVal.ten kv.2 : DVal V ν)))) key = false := by
  rw [dictContains, List.any_eq_false]
  intro kv hkv
  obtain ⟨⟨c, i⟩, hmem, rfl⟩ := List.mem_map.mp hkv
  have hc : c ∈ chNames := (List.of_mem_zip hmem).1
  intro he
  have hceq : c = key := beq_iff_eq.mp he
  exact hk (hceq ▸ hc)

/-- C9: when a target is configured and the reserved keys `"weight"` and
`"norm_meta"` are not channel names, the mapping passed to the transform
carries the first target channel's tensor under `"weight"` (the same
value, an alias in the source), and the sample returned to the caller —
also when the transform returns a list of crops — contains no `"weight"`
key. -/
theorem getitem_weight_alias_and_removed {V ν ι : Type}
    (srcCh : List String) (t0 : String) (tcs : List String)
    (images : List V) (normMeta : Option ν) (sampleIdx : ι)
    (transform : Option (ImgDict V ν → TransOut V ν))
    (hw : "weight" ∉ srcCh ++ (t0 :: tcs))
    (hn : "norm_meta" ∉ srcCh ++ (t0 :: tcs)) :
    (∀ d : ImgDict V ν,
      preTransformImages srcCh (some (t0 :: tcs)) images normMeta = some d →
      d.lookup "weight" = d.lookup t0) ∧
    (∀ s : List (String × SVal V ν ι),
      getItemSample srcCh (some (t0 :: tcs)) images normMeta sampleIdx
        transform = some s →
      s.lookup "weight" = none) := by
  have htw : t0 ≠ "weight" := by
    intro he
    exact hw (by simp [← he])
  have htn : t0 ≠ "norm_meta" := by
    intro he
    exact hn (by simp [← he])
  constructor
  · intro d hd
    unfold preTransformImages at hd
    simp only at hd
    set chNames := srcCh ++ t0 :: tcs with hch
    set d0 : ImgDict V ν :=
      (chNames.zip images).map (fun kv => (kv.1, DVal.ten kv.2)) with hd0
    have hcw : dictContains d0 "weight" = false :=
      contains_false_of_not_mem_names chNames images "weight" hw
    have hlw0 : d0.lookup "weight" = none :=
      lookup_eq_none_of_contains_false d0 "weight" hcw
    cases hl : d0.lookup t0 with
    | none => rw [hl] at hd; cases hd
    | some v =>
        rw [hl] at hd
        simp only [Option.map_some'] at hd
        have hins : dictInsert d0 "weight" v = d0 ++ [("weight", v)] := by
          rw [dictInsert, hcw]
          rfl
        have hlw : (d0 ++ [("weight", v)]).lookup "weight" = some v := by
          rw [lookup_append, hlw0]
          simp [List.lookup]
        have hlt : (d0 ++ [("weight", v)]).lookup t0 = some v := by
          rw [lookup_append, hl]
          rfl
        cases hm : normMeta with
        | none =>
            rw [hm] at hd
            simp only at hd
            obtain rfl : dictInsert d0 "weight" v = d := by
              exact Option.some.inj hd
            rw [hins, hlw, hlt]
        | some m =>
            rw [hm] at hd
            simp only at hd
            obtain rfl : dictInsert (dictInsert d0 "weight" v) "norm_meta"
                (DVal.meta m) = d := Option.some.inj hd
            have hcn : dictContains (dictInsert d0 "weight" v)
                "norm_meta" = false := by
              rw [hins, dictContains, List.any_append]
              have h1 : dictContains d0 "norm_meta" = false :=
                contains_false_of_not_mem_names chNames images "norm_meta" hn
              rw [dictContains] at h1
              rw [h1]
              simp
            have hins2 : dictInsert (dictInsert d0 "weight" v) "norm_meta"
                (DVal.meta m) =
                (d0 ++ [("weight", v)]) ++ [("norm_meta", DVal.meta m)] := by
              rw [dictInsert, hcn, hins]
              simp
            rw [hins2,
              lookup_append (d0 ++ [("weight", v)])
                [("norm_meta", DVal.meta m)] "weight",
              lookup_append (d0 ++ [("weight", v)])
                [("norm_meta", DVal.meta m)] t0,
              hlw, hlt]
            rfl
  · intro s hs
    unfold getItemSample at hs
    rw [Option.bind_eq_some] at hs
    obtain ⟨d, _, hs2⟩ := hs
    simp only at hs2
    rw [Option.bind_eq_some] at hs2
    obtain ⟨src, _, hs3⟩ := hs2
    rw [Option.map_eq_some'] at hs3
    obtain ⟨tgt, _, rfl⟩ := hs3
    simp [List.lookup]

theorem getitem_weight_alias_and_removed_witness :
    (([("phase", DVal.ten 10), ("nuclei", DVal.ten 20),
       ("weight", DVal.ten 20)] : ImgDict Nat Nat).lookup "weight" =
      ([("phase", DVal.ten 10), ("nuclei", DVal.ten 20),
        ("weight", DVal.ten 20)] : ImgDict Nat Nat).lookup "nuclei") ∧
    (([("index", SVal.idx 0), ("source", SVal.ten [10]),
       ("norm_meta", SVal.meta none), ("target", SVal.ten [20])] :
        List (String × SVal Nat Nat Nat)).lookup "weight" = none) := by
  have h := @getitem_weight_alias_and_removed Nat Nat Nat
    ["phase"] "nuclei" [] [10, 20] none 0 none (by decide) (by decide)
  exact ⟨h.1 _ (by decide), h.2 _ (by decide)⟩

/-! ## C10: `CachedDataset` cache hits -/

/-- The mutable state of a `CachedDataset` (HEAD variant): the
pre-allocated cache contents per position and the number of source-array
decodes performed so far. -/
structure CachedState (V : Type) where
  cache : List (List V)
  decodeCount : Nat
deriving DecidableEq

/-- `_init_cache_dataset`: decode every position once
(`pos.data.oindex[0:1, total_ch_idx, :]`, cast to `float32` when needed —
the cast is the abstract `convert`) into the pre-allocated cache.  A
position's raw channel data is abstracted as a function from channel
index. -/
def initCacheState {V : Type} (convert : V → V) (totalChIdx : List Nat)
    (positionData : List (Nat → V)) : CachedState V :=
  { cache := positionData.map (fun d => totalChIdx.map (fun c => convert (d c))),
    decodeCount := positionData.length }

/-- `CachedDataset.__getitem__` (HEAD variant): the lazy caching block is
commented out, so the method only reads `self.cache[index]`, unbinds the
channel dimension, and assembles the sample exactly like the sliding
window dataset (weight aliasing, optional transform, weight removal,
channel stacking).  It performs no store read and no cache write: the
state is returned unchanged. -/
def cachedGetItem {V ν ι : Type} (srcCh : List String)
    (tgtCh : Option (List String)) (normMetaOf : Nat → Option ν)
    (sampleIdxOf : Nat → ι)
    (transform : Option (ImgDict V ν → TransOut V ν))
    (st : CachedState V) (index : Nat) :
    Option (List (String × SVal V ν ι)) × CachedState V :=
  (getItemSample srcCh tgtCh (st.cache.getD index [])
    (normMetaOf index) (sampleIdxOf index) transform, st)

/-- C10: for a `CachedDataset` without a transform, calling `__getitem__`
twice at the same index returns identical samples; neither call mutates
the cache or performs another decode (the decode count stays at one per
position, established at initialization). -/
theorem cached_getitem_stable {V ν ι : Type} (convert : V → V)
    (totalChIdx : List Nat) (positionData : List (Nat → V))
    (srcCh : List String) (tgtCh : Option (List String))
    (normMetaOf : Nat → Option ν) (sampleIdxOf : Nat → ι) (index : Nat) :
    (cachedGetItem srcCh tgtCh normMetaOf sampleIdxOf none
        (initCacheState convert totalChIdx positionData) index).1 =
      (cachedGetItem srcCh tgtCh normMetaOf sampleIdxOf none
        ((cachedGetItem srcCh tgtCh normMetaOf sampleIdxOf none
            (initCacheState convert totalChIdx positionData) index).2)
        index).1 ∧
    (cachedGetItem srcCh tgtCh normMetaOf sampleIdxOf none
        (initCacheState convert totalChIdx positionData) index).2 =
      initCacheState convert totalChIdx positionData ∧
    (cachedGetItem srcCh tgtCh normMetaOf sampleIdxOf none
        ((cachedGetItem srcCh tgtCh normMetaOf sampleIdxOf none
            (initCacheState convert totalChIdx positionData) index).2)
        index).2 =
      initCacheState convert totalChIdx positionData ∧
    (initCacheState convert totalChIdx positionData).decodeCount =
      positionData.length := by
  exact ⟨rfl, rfl, rfl, rfl⟩

end VisCy
